import Mathlib

/-!
Verification of the twisted Edwards affine point layer and the Ristretto
layer of the Ed448-Goldilocks curve library.

The development shallowly embeds the two audited source files:

* `src/curve/twedwards/affine.rs` — `AffinePoint` and `AffineNielsPoint`
  with their constructors, the curve-equation test, negation, the unified
  affine addition law and the conversions to the extensible/extended and
  Niels forms;
* `src/ristretto/points.rs` — `RistrettoPoint`, `CompressedRistretto`,
  the coordinate cross-multiplication `equals` test, the byte-level
  equality of compressed points, and the (unimplemented, panicking)
  `encode`/`decode` stubs.

The prime-field element type is external to the repository (the spec lists
it as an out-of-scope collaborator, specified only at its interface), so it
is modelled as a parameter: any integral commutative ring with decidable
equality together with the interface operations the source consumes, in
particular a total constant-time inversion with `invert 0 = 0`, exactly as
the spec's external-interface section demands.  The curve constant
`TWISTED_D` lives in a file that is not part of the audited sources, so it
too is a parameter `d`.  Concrete instances (used for witnesses and
counterexamples) work in `ZMod 11`, whose `FieldOps.invert` is implemented
executably so that `decide` can evaluate every operation.
-/

namespace Goldilocks

/-- Modelled from the spec: the interface of the external `FieldElement`
type.  The source consumes `zero`, `one`, ring arithmetic, negation and a
total inversion; the spec requires `invert` to be total with
`invert 0 = 0` ("invert of zero must be defined, e.g., as zero") and
`x * invert x = 1` for any nonzero `x` of the (prime) field. -/
class FieldOps (F : Type) extends CommRing F where
  invert : F → F
  invert_zero : invert (0 : F) = 0
  mul_invert_cancel : ∀ x : F, x ≠ 0 → x * invert x = 1

export FieldOps (invert)

/-- Model of the external `FieldElement::square`. -/
def fsquare {F : Type} [FieldOps F] (x : F) : F := x * x

/-- `AffinePoint` from `src/curve/twedwards/affine.rs`: a point of the
twisted Edwards curve in plain `(x, y)` coordinates. -/
structure AffinePoint (F : Type) where
  x : F
  y : F
deriving DecidableEq

/-- `AffineNielsPoint` from `src/curve/twedwards/affine.rs`: the
precomputed form `(y_plus_x, y_minus_x, td)` of an affine point. -/
structure AffineNielsPoint (F : Type) where
  y_plus_x : F
  y_minus_x : F
  td : F
deriving DecidableEq

/-- `ExtensiblePoint`: the five-coordinate accumulator form
`(X, Y, Z, T1, T2)`.  Its declaration is consumed by
`AffinePoint::to_extensible` in the audited source. -/
structure ExtensiblePoint (F : Type) where
  X : F
  Y : F
  Z : F
  T1 : F
  T2 : F
deriving DecidableEq

/-- `ExtendedPoint`: the canonical four-coordinate projective form
`(X, Y, Z, T)`, consumed by the conversions of the audited source and
wrapped by `RistrettoPoint`. -/
structure ExtendedPoint (F : Type) where
  X : F
  Y : F
  Z : F
  T : F
deriving DecidableEq

section CurveDefs

variable {F : Type} [FieldOps F] [DecidableEq F]

/-- `AffinePoint::identity`: the point `(0, 1)`. -/
def AffinePoint.identity : AffinePoint F := ⟨0, 1⟩

/-- `AffinePoint::is_on_curve`: evaluates the curve equation
`y² - x² == 1 + TWISTED_D·x²·y²` exactly as the source writes it. -/
def AffinePoint.is_on_curve (d : F) (P : AffinePoint F) : Bool :=
  let xx := fsquare P.x
  let yy := fsquare P.y
  yy - xx == 1 + (d * xx * yy)

/-- `AffinePoint::negate`: `(x, y) ↦ (-x, y)`. -/
def AffinePoint.negate (P : AffinePoint F) : AffinePoint F := ⟨-P.x, P.y⟩

/-- `AffinePoint::add`: the unified affine twisted Edwards addition law,
with the numerators, denominators and inversions exactly as in the
source. -/
def AffinePoint.add (d : F) (P Q : AffinePoint F) : AffinePoint F :=
  let y_num := P.y * Q.y + P.x * Q.x
  let y_den := 1 - d * P.x * Q.x * P.y * Q.y
  let x_num := P.x * Q.y + P.y * Q.x
  let x_den := 1 + d * P.x * Q.x * P.y * Q.y
  ⟨x_num * invert x_den, y_num * invert y_den⟩

/-- `AffinePoint::to_extensible`: `(x, y) ↦ (x, y, 1, x, y)`. -/
def AffinePoint.to_extensible (P : AffinePoint F) : ExtensiblePoint F :=
  ⟨P.x, P.y, 1, P.x, P.y⟩

/-- `AffinePoint::to_affine_niels`:
`(x, y) ↦ (y + x, y - x, x·y·TWISTED_D)`. -/
def AffinePoint.to_affine_niels (d : F) (P : AffinePoint F) : AffineNielsPoint F :=
  ⟨P.y + P.x, P.y - P.x, P.x * P.y * d⟩

/-- Modelled from the spec: `ExtensiblePoint::to_extended` lives in
`extensible.rs`, which is not among the audited sources; the spec fixes it
as "compute `T = T1·T2` (one multiplication), yielding the canonical
4-coordinate form". -/
def ExtensiblePoint.to_extended (P : ExtensiblePoint F) : ExtendedPoint F :=
  ⟨P.X, P.Y, P.Z, P.T1 * P.T2⟩

/-- `AffinePoint::to_extended`: the source composition
`to_extensible().to_extended()`. -/
def AffinePoint.to_extended (P : AffinePoint F) : ExtendedPoint F :=
  P.to_extensible.to_extended

/-- `AffineNielsPoint::identity`: `(1, 1, 0)`. -/
def AffineNielsPoint.identity : AffineNielsPoint F := ⟨1, 1, 0⟩

/-- `AffineNielsPoint::equals`: component-wise field equality, in the
source's order. -/
def AffineNielsPoint.equals (P Q : AffineNielsPoint F) : Bool :=
  (P.y_minus_x == Q.y_minus_x) && (P.y_plus_x == Q.y_plus_x) && (P.td == Q.td)

/-- `AffineNielsPoint::to_extended`: the source's reconstruction
`X = (y+x) - (y-x)`, `Y = (y-x) + (y+x)`, `Z = 1`, `T = (y+x)·(y-x)`. -/
def AffineNielsPoint.to_extended (P : AffineNielsPoint F) : ExtendedPoint F :=
  ⟨P.y_plus_x - P.y_minus_x, P.y_minus_x + P.y_plus_x, 1, P.y_plus_x * P.y_minus_x⟩

/-- Modelled from the spec: `ExtendedPoint::IDENTITY` lives in
`extended.rs`, which is not among the audited sources; the spec fixes it as
a `Z ≠ 0` representative of the neutral element, affine `(0, 1)`, with
`T = X·Y/Z = 0`. -/
def ExtendedPoint.IDENTITY : ExtendedPoint F := ⟨0, 1, 1, 0⟩

/-- Modelled from the spec: the affine image of an `ExtendedPoint`; the
spec's data model says `(X, Y, Z, T)` "represents affine `(X/Z, Y/Z)`",
with division rendered through the external `invert`. -/
def ExtendedPoint.toAffine (P : ExtendedPoint F) : AffinePoint F :=
  ⟨P.X * invert P.Z, P.Y * invert P.Z⟩

/-- Modelled from the spec: validity of an `ExtendedPoint` per the spec's
data-model invariants — `Z ≠ 0`, `T = X·Y/Z` exactly (stated
multiplicatively as `T·Z = X·Y`), and the represented affine point lies on
the curve. -/
def ExtendedPoint.valid (d : F) (P : ExtendedPoint F) : Prop :=
  P.Z ≠ 0 ∧ P.T * P.Z = P.X * P.Y ∧ P.toAffine.is_on_curve d = true

/-- Doubling an affine point with the source's addition law, `P.add d P`. -/
def AffinePoint.double (d : F) (P : AffinePoint F) : AffinePoint F := P.add d P

end CurveDefs

/-- `RistrettoPointBytes`, the 56-byte wire representation. -/
def RistrettoPointBytes : Type := Fin 56 → Fin 256

/-- `CompressedRistretto`: a wrapper around 56 raw bytes. -/
structure CompressedRistretto where
  bytes : RistrettoPointBytes

/-- `RistrettoPoint`: a wrapper around one `ExtendedPoint` representative
of a cofactor coset. -/
structure RistrettoPoint (F : Type) where
  point : ExtendedPoint F
deriving DecidableEq

section RistrettoDefs

variable {F : Type} [FieldOps F] [DecidableEq F]

/-- `CompressedRistretto::IDENTITY`: the all-zero 56-byte array. -/
def CompressedRistretto.IDENTITY : CompressedRistretto := ⟨fun _ => 0⟩

/-- `Default for CompressedRistretto`: returns `Self::IDENTITY`. -/
def CompressedRistretto.default : CompressedRistretto := CompressedRistretto.IDENTITY

/-- `CompressedRistretto::identity()`: the all-zero 56-byte array, as the
source builds it (`CompressedRistretto([0; 56])`). -/
def CompressedRistretto.identity : CompressedRistretto := ⟨fun _ => 0⟩

/-- `ConstantTimeEq for CompressedRistretto`: byte-wise comparison of the
two 56-byte arrays. -/
def CompressedRistretto.ct_eq (a b : CompressedRistretto) : Bool :=
  (List.finRange 56).all fun i => a.bytes i == b.bytes i

/-- `PartialEq for CompressedRistretto`: the boolean of `ct_eq`. -/
def CompressedRistretto.eq (a b : CompressedRistretto) : Bool := a.ct_eq b

/-- `RistrettoPoint::equals`: the source's single cross-multiplication
test `X₁·Y₂ == Y₁·X₂` on the raw wrapped coordinates. -/
def RistrettoPoint.equals (a b : RistrettoPoint F) : Bool :=
  a.point.X * b.point.Y == a.point.Y * b.point.X

/-- `RistrettoPoint::IDENTITY`: wraps `ExtendedPoint::IDENTITY`. -/
def RistrettoPoint.IDENTITY : RistrettoPoint F := ⟨ExtendedPoint.IDENTITY⟩

/-- `RistrettoPoint::encode`: the source body is `todo!()`, which panics
unconditionally; the panic is modelled as an `Except.error` carrying the
message of `todo!()`. -/
def RistrettoPoint.encode (_ : RistrettoPoint F) : Except String CompressedRistretto :=
  Except.error "not yet implemented"

/-- `CompressedRistretto::decode`: the source body is `todo!()`, which
panics unconditionally; the panic is modelled as an `Except.error`
carrying the message of `todo!()`.  A non-panicking implementation would
inhabit `Option (RistrettoPoint F)` instead. -/
def CompressedRistretto.decode (F : Type) [FieldOps F] (_ : CompressedRistretto) :
    Except String (Option (RistrettoPoint F)) :=
  Except.error "not yet implemented"

/-- Modelled from the spec: two representatives differ by an element of
the order-4 cofactor subgroup exactly when that subgroup (the set of
points killed by multiplication by 4, since the curve's cofactor is 4)
contains their difference, i.e. when fourfold multiples of the two affine
images agree; the fourfold multiple is computed with the source's own
affine addition law. -/
def RistrettoPoint.sameFourCoset (d : F) (a b : RistrettoPoint F) : Prop :=
  ((a.point.toAffine.double d).double d) = ((b.point.toAffine.double d).double d)

instance (d : F) (P : ExtendedPoint F) : Decidable (P.valid d) := by
  unfold ExtendedPoint.valid
  infer_instance

instance (d : F) (a b : RistrettoPoint F) : Decidable (a.sameFourCoset d b) := by
  unfold RistrettoPoint.sameFourCoset
  infer_instance

end RistrettoDefs

/-! Concrete instances for witnesses and counterexamples: the field
`ZMod 11` with an executable inversion (`x⁹ = x⁻¹` by Fermat), and the
curve constant `d = 5`, which mirrors the structure of the real
Ed448-Goldilocks twisted curve: `d` is a square, the curve group has
order 12 = 4·3, and the order-4 cofactor subgroup is cyclic. -/

instance : Fact (Nat.Prime 11) := ⟨by norm_num⟩

instance : FieldOps (ZMod 11) where
  invert x := x * x * x * x * x * x * x * x * x
  invert_zero := by decide
  mul_invert_cancel := by decide

/-! ## Helper lemmas -/

theorem invert_one {F : Type} [FieldOps F] [Nontrivial F] : invert (1 : F) = 1 := by
  have h := FieldOps.mul_invert_cancel (1 : F) one_ne_zero
  rwa [one_mul] at h

theorem invert_mul_cancel {F : Type} [FieldOps F] (x : F) (h : x ≠ 0) :
    invert x * x = 1 := by
  rw [mul_comm]
  exact FieldOps.mul_invert_cancel x h

/-- Adding the order-2 torsion point `(0, -1)` with the source's affine
addition law negates both coordinates. -/
theorem add_neg_one_eq {F : Type} [FieldOps F] [Nontrivial F] [DecidableEq F]
    (d : F) (P : AffinePoint F) :
    P.add d ⟨0, -1⟩ = ⟨-P.x, -P.y⟩ := by
  simp [AffinePoint.add, invert_one, mul_neg_one]

/-! ## Claim C5: components of `to_affine_niels` and the Niels identity -/

/-- C5 counterexample: the claim states the third Niels component is
`2·d·x·y`, but the source computes `x·y·d`; at the on-curve point `(1, 4)`
with `d = 5` over `ZMod 11` the two differ (`9 ≠ 7`). -/
theorem to_affine_niels_td_cex :
    ((⟨1, 4⟩ : AffinePoint (ZMod 11)).is_on_curve 5 = true) ∧
    ((⟨1, 4⟩ : AffinePoint (ZMod 11)).to_affine_niels 5).td ≠ 2 * 5 * 1 * 4 := by
  decide

/-- C5 (amended): for every AffinePoint `(x, y)` satisfying the curve
equation, `to_affine_niels` produces components
`(y + x, y − x, d·x·y)` — with `d·x·y`, not `2·d·x·y` — and
`AffineNielsPoint::identity` is `(1, 1, 0)`. -/
theorem to_affine_niels_components {F : Type} [FieldOps F] [DecidableEq F] (d : F) :
    (∀ P : AffinePoint F, P.is_on_curve d = true →
        P.to_affine_niels d = ⟨P.y + P.x, P.y - P.x, d * P.x * P.y⟩) ∧
    AffineNielsPoint.identity = (⟨1, 1, 0⟩ : AffineNielsPoint F) := by
  refine ⟨fun P _ => ?_, rfl⟩
  simp only [AffinePoint.to_affine_niels, AffineNielsPoint.mk.injEq, true_and]
  ring

/-- Witness for C5's amended theorem at the on-curve point `(1, 4)` of the
`d = 5` curve over `ZMod 11`. -/
theorem to_affine_niels_components_witness :
    (⟨1, 4⟩ : AffinePoint (ZMod 11)).to_affine_niels 5 = ⟨4 + 1, 4 - 1, 5 * 1 * 4⟩ :=
  (to_affine_niels_components 5).1 ⟨1, 4⟩ (by decide)

/-! ## Claim C6: `P.negate().add(P)` and the identity -/

/-- C6 counterexample: on the curve with non-square parameter `d = 2` over
`ZMod 11` (the spec requires the curve constant to be non-square), the
point `(2, 2)` satisfies the curve equation, yet
`P.negate().add(P) = (0, 0) ≠ (0, 1)`: the addition law's `y` denominator
`1 + d·x²·y²` vanishes there, and the total `invert` maps it to `0`. -/
theorem negate_add_identity_cex :
    ((⟨2, 2⟩ : AffinePoint (ZMod 11)).is_on_curve 2 = true) ∧
    (∀ r : ZMod 11, r * r ≠ 2) ∧
    ((⟨2, 2⟩ : AffinePoint (ZMod 11)).negate).add 2 ⟨2, 2⟩ ≠ AffinePoint.identity := by
  decide

/-- C6 (amended): for every AffinePoint `P` satisfying the curve equation
whose addition denominator `1 + d·x²·y²` is nonzero (this excludes only
the degenerate points with `d·x⁴ = −1`, which exist exactly when `−1/d`
is a fourth power), `P.negate().add(P)` equals `AffinePoint::identity()`,
the point `(0, 1)`, exactly. -/
theorem negate_add_identity_amended {F : Type} [FieldOps F] [IsDomain F] [DecidableEq F]
    (d : F) (P : AffinePoint F) (hc : P.is_on_curve d = true)
    (hden : (1 : F) + d * fsquare P.x * fsquare P.y ≠ 0) :
    (P.negate).add d P = AffinePoint.identity := by
  have he : P.y * P.y - P.x * P.x = 1 + d * (P.x * P.x) * (P.y * P.y) := by
    simpa [AffinePoint.is_on_curve, fsquare] using hc
  have hden2 : (1 : F) + d * (P.x * P.x) * (P.y * P.y) ≠ 0 := by
    simpa [fsquare] using hden
  simp only [AffinePoint.add, AffinePoint.negate, AffinePoint.identity, AffinePoint.mk.injEq]
  constructor
  · have h0 : -P.x * P.y + P.y * P.x = (0 : F) := by ring
    rw [h0, zero_mul]
  · have h1 : (1 : F) - d * -P.x * P.x * P.y * P.y = 1 + d * (P.x * P.x) * (P.y * P.y) := by
      ring
    have h2 : P.y * P.y + -P.x * P.x = (1 : F) + d * (P.x * P.x) * (P.y * P.y) := by
      linear_combination he
    rw [h1, h2]
    exact FieldOps.mul_invert_cancel _ hden2

/-- Witness for C6's amended theorem at the on-curve point `(1, 4)` of the
`d = 5` curve over `ZMod 11`. -/
theorem negate_add_identity_amended_witness :
    ((⟨1, 4⟩ : AffinePoint (ZMod 11)).negate).add 5 ⟨1, 4⟩ = AffinePoint.identity :=
  negate_add_identity_amended 5 ⟨1, 4⟩ (by decide) (by decide)

/-! ## Claim C7: the identity point is a left unit for `add` -/

/-- C7: `AffinePoint::identity()` returns `(0, 1)`, and for every
AffinePoint `P`, `AffinePoint::identity().add(P)` equals `P`. -/
theorem identity_add_left {F : Type} [FieldOps F] [IsDomain F] [DecidableEq F] (d : F) :
    AffinePoint.identity = (⟨0, 1⟩ : AffinePoint F) ∧
    ∀ P : AffinePoint F, AffinePoint.add d AffinePoint.identity P = P := by
  refine ⟨rfl, fun P => ?_⟩
  simp [AffinePoint.add, AffinePoint.identity, invert_one]

/-- Witness for C7 at the point `(3, 7)` and `d = 5` over `ZMod 11`. -/
theorem identity_add_left_witness :
    AffinePoint.add 5 AffinePoint.identity ⟨3, 7⟩ = (⟨3, 7⟩ : AffinePoint (ZMod 11)) :=
  (identity_add_left 5).2 ⟨3, 7⟩

/-! ## Claim C8: negation preserves curve membership -/

/-- C8: for every AffinePoint `P`, if `P.is_on_curve()` holds then
`P.negate().is_on_curve()` also holds. -/
theorem negate_preserves_curve {F : Type} [FieldOps F] [DecidableEq F] (d : F)
    (P : AffinePoint F) (hc : P.is_on_curve d = true) :
    P.negate.is_on_curve d = true := by
  simp only [AffinePoint.is_on_curve, AffinePoint.negate, fsquare, beq_iff_eq] at hc ⊢
  linear_combination hc

/-- Witness for C8 at the on-curve point `(1, 4)` of the `d = 5` curve
over `ZMod 11`. -/
theorem negate_preserves_curve_witness :
    (⟨1, 4⟩ : AffinePoint (ZMod 11)).negate.is_on_curve 5 = true :=
  negate_preserves_curve 5 ⟨1, 4⟩ (by decide)

/-! ## Claim C9: `equals` is reflexive and symmetric -/

/-- C9: `RistrettoPoint::equals` is reflexive and symmetric: for every
RistrettoPoint `a`, `a.equals(a)` returns true, and for every pair,
`a.equals(b)` returns the same boolean as `b.equals(a)`. -/
theorem equals_refl_symm {F : Type} [FieldOps F] [DecidableEq F] :
    ∀ a b : RistrettoPoint F, a.equals a = true ∧ a.equals b = b.equals a := by
  intro a b
  constructor
  · simp [RistrettoPoint.equals, mul_comm]
  · simp only [RistrettoPoint.equals]
    rw [Bool.eq_iff_iff]
    simp only [beq_iff_eq]
    constructor
    · intro h
      linear_combination -h
    · intro h
      linear_combination -h

/-! ## Claim C10: `CompressedRistretto` identity values and equality -/

/-- C10: `CompressedRistretto::default()` and
`CompressedRistretto::identity()` both equal
`CompressedRistretto::IDENTITY`, the array of 56 zero bytes; and equality
of two CompressedRistretto values holds exactly when their 56-byte arrays
agree byte for byte. -/
theorem compressed_identity_default_bytes :
    CompressedRistretto.default = CompressedRistretto.IDENTITY ∧
    CompressedRistretto.identity = CompressedRistretto.IDENTITY ∧
    (∀ i, CompressedRistretto.IDENTITY.bytes i = 0) ∧
    (∀ a b : CompressedRistretto, a.eq b = true ↔ ∀ i, a.bytes i = b.bytes i) := by
  refine ⟨rfl, rfl, fun i => rfl, fun a b => ?_⟩
  simp [CompressedRistretto.eq, CompressedRistretto.ct_eq, List.all_eq_true,
    List.mem_finRange]

/-! ## Claim C1: `RistrettoPoint::equals` and the cofactor coset -/

/-- C1 counterexample: two valid RistrettoPoints whose wrapped
ExtendedPoints differ by an element of the order-4 cofactor subgroup on
which `equals` returns `false`.  The curve is `d = 5` over `ZMod 11`,
which has cofactor exactly 4 with a cyclic order-4 subgroup, mirroring the
real Ed448-Goldilocks twisted curve (whose `TWISTED_D` is likewise a
square).  The points `(1, 4)` and `(9, 8)` differ by a generator of that
subgroup: their doubles `(2, 8)` and `(9, 3)` still differ (so the
difference has exact order 4), while their fourfold multiples agree —
yet `equals` compares them unequal. -/
theorem equals_fourCoset_cex :
    ExtendedPoint.valid 5 (⟨1, 4, 1, 4⟩ : ExtendedPoint (ZMod 11)) ∧
    ExtendedPoint.valid 5 (⟨9, 8, 1, 6⟩ : ExtendedPoint (ZMod 11)) ∧
    RistrettoPoint.sameFourCoset 5 (⟨⟨1, 4, 1, 4⟩⟩ : RistrettoPoint (ZMod 11)) ⟨⟨9, 8, 1, 6⟩⟩ ∧
    (⟨1, 4⟩ : AffinePoint (ZMod 11)).double 5 ≠ (⟨9, 8⟩ : AffinePoint (ZMod 11)).double 5 ∧
    RistrettoPoint.equals (⟨⟨1, 4, 1, 4⟩⟩ : RistrettoPoint (ZMod 11)) ⟨⟨9, 8, 1, 6⟩⟩ = false := by
  decide

/-- C1 (amended): `RistrettoPoint::equals` identifies representatives
that differ by an element of the order-2 subgroup `{identity, (0, −1)}`
only: for valid RistrettoPoints whose affine images are equal or are
related by translation with the order-2 torsion point `(0, −1)` (which
negates both coordinates), `a.equals(b)` returns true even though the raw
`(X, Y, Z, T)` coordinates may differ; representatives differing by a
strict order-4 element compare unequal (see the counterexample). -/
theorem equals_twoTorsion_translate {F : Type} [FieldOps F] [IsDomain F] [DecidableEq F]
    (d : F) (a b : RistrettoPoint F) (ha : a.point.valid d) (hb : b.point.valid d)
    (hrel : b.point.toAffine = a.point.toAffine ∨
            b.point.toAffine = (a.point.toAffine).add d ⟨0, -1⟩) :
    a.equals b = true := by
  obtain ⟨hZa, -, -⟩ := ha
  obtain ⟨hZb, -, -⟩ := hb
  have hzb : invert b.point.Z * b.point.Z = 1 := invert_mul_cancel _ hZb
  simp only [RistrettoPoint.equals, beq_iff_eq]
  rcases hrel with h | h
  · simp only [ExtendedPoint.toAffine, AffinePoint.mk.injEq] at h
    obtain ⟨hx, hy⟩ := h
    have hX : b.point.X = a.point.X * invert a.point.Z * b.point.Z := by
      have h3 := congrArg (· * b.point.Z) hx
      simpa [mul_assoc, hzb] using h3
    have hY : b.point.Y = a.point.Y * invert a.point.Z * b.point.Z := by
      have h3 := congrArg (· * b.point.Z) hy
      simpa [mul_assoc, hzb] using h3
    rw [hX, hY]
    ring
  · rw [add_neg_one_eq] at h
    simp only [ExtendedPoint.toAffine, AffinePoint.mk.injEq] at h
    obtain ⟨hx, hy⟩ := h
    have hX : b.point.X = -(a.point.X * invert a.point.Z) * b.point.Z := by
      have h3 := congrArg (· * b.point.Z) hx
      simpa [mul_assoc, hzb] using h3
    have hY : b.point.Y = -(a.point.Y * invert a.point.Z) * b.point.Z := by
      have h3 := congrArg (· * b.point.Z) hy
      simpa [mul_assoc, hzb] using h3
    rw [hX, hY]
    ring

/-- Witness for C1's amended theorem: the identity representative
`(0, 1, 1, 0)` and the differently-scaled order-2 translate
`(0, −2, 2, 0)` (affine image `(0, −1)`) compare equal although their raw
coordinates differ. -/
theorem equals_twoTorsion_translate_witness :
    RistrettoPoint.equals (⟨⟨0, 1, 1, 0⟩⟩ : RistrettoPoint (ZMod 11)) ⟨⟨0, -2, 2, 0⟩⟩ = true :=
  equals_twoTorsion_translate 5 ⟨⟨0, 1, 1, 0⟩⟩ ⟨⟨0, -2, 2, 0⟩⟩ (by decide) (by decide)
    (Or.inr (by decide))

/-! ## Claim C2: the Ristretto round-trip law -/

/-- C2: the round-trip law cannot hold because `RistrettoPoint::encode`
is the stub `todo!()`, which panics on every input, the identity point
included; this theorem evaluates the stub at `RistrettoPoint::IDENTITY`. -/
theorem encode_stub_errors :
    RistrettoPoint.encode (RistrettoPoint.IDENTITY : RistrettoPoint (ZMod 11)) =
      Except.error "not yet implemented" := rfl

/-! ## Claim C3: decode total on 56-byte inputs -/

/-- C3: `CompressedRistretto::decode` is the stub `todo!()`, which panics
on every 56-byte input rather than returning a normal `Option` result;
this theorem evaluates the stub at the all-zero canonical identity
encoding, which the spec requires to decode to `Some` identity. -/
theorem decode_stub_errors :
    CompressedRistretto.decode (ZMod 11) CompressedRistretto.IDENTITY =
      Except.error "not yet implemented" := rfl

/-! ## Claim C4: the `ExtendedPoint` invariant under the conversions -/

/-- C4 counterexample: `AffineNielsPoint::to_extended` violates
`T·Z = X·Y` already for the Niels point derived from the identity
`(0, 1)` (which satisfies the curve equation): the result is
`(0, 2, 1, 1)` with `T·Z = 1` but `X·Y = 0`. -/
theorem niels_to_extended_invariant_cex :
    ((⟨0, 1⟩ : AffinePoint (ZMod 11)).is_on_curve 5 = true) ∧
    ((⟨0, 1⟩ : AffinePoint (ZMod 11)).to_affine_niels 5).to_extended.T *
        ((⟨0, 1⟩ : AffinePoint (ZMod 11)).to_affine_niels 5).to_extended.Z ≠
      ((⟨0, 1⟩ : AffinePoint (ZMod 11)).to_affine_niels 5).to_extended.X *
        ((⟨0, 1⟩ : AffinePoint (ZMod 11)).to_affine_niels 5).to_extended.Y := by
  decide

/-- C4 (amended): every ExtendedPoint produced by
`AffinePoint::to_extended` on a point satisfying the curve equation
satisfies `Z ≠ 0` and `T·Z = X·Y`; for `AffineNielsPoint::to_extended` on
a Niels point derived from such a point only `Z ≠ 0` holds — its `T`
component is `(y+x)·(y−x)`, which differs from `X·Y/Z` in general (see
the counterexample at the identity). -/
theorem to_extended_invariant_amended {F : Type} [FieldOps F] [IsDomain F] [DecidableEq F]
    (d : F) :
    (∀ P : AffinePoint F, P.is_on_curve d = true →
        P.to_extended.Z ≠ 0 ∧
          P.to_extended.T * P.to_extended.Z = P.to_extended.X * P.to_extended.Y) ∧
    (∀ P : AffinePoint F, P.is_on_curve d = true →
        ((P.to_affine_niels d).to_extended).Z ≠ 0) := by
  constructor
  · intro P _
    refine ⟨one_ne_zero, ?_⟩
    show P.x * P.y * 1 = P.x * P.y
    ring
  · intro P _
    exact one_ne_zero

/-- Witness for C4's amended theorem at the on-curve point `(1, 4)` of the
`d = 5` curve over `ZMod 11`. -/
theorem to_extended_invariant_amended_witness :
    (⟨1, 4⟩ : AffinePoint (ZMod 11)).to_extended.Z ≠ 0 ∧
      (⟨1, 4⟩ : AffinePoint (ZMod 11)).to_extended.T *
          (⟨1, 4⟩ : AffinePoint (ZMod 11)).to_extended.Z =
        (⟨1, 4⟩ : AffinePoint (ZMod 11)).to_extended.X *
          (⟨1, 4⟩ : AffinePoint (ZMod 11)).to_extended.Y :=
  (to_extended_invariant_amended 5).1 ⟨1, 4⟩ (by decide)

end Goldilocks
